import Mathlib

/-!
Verification of the FlashyCard text-normalization and parsing pipeline.

The pipeline lives in the flashcard repository as four functions:
`normalizeCardText`, `cleanAIGeneratedText`, `parseAndNormalizeFlashcards`
and `removeDuplicateCards`.  Strings are modelled as `List Char`; each
JavaScript regular-expression replacement is embedded as an explicit
recursive function with the same left-to-right, global-replacement
semantics.  Unicode character classes are modelled on their ASCII
behaviour (the class of letters is `Char.isAlpha`, the class of digits is
`Char.isDigit`), which is the fragment the claims exercise.
-/

namespace FlashyCard

/-- Strings of the model are lists of characters. -/
abbrev Str := List Char

/-- The character class matched by the JavaScript whitespace escape:
space, tab, line feed, vertical tab, form feed, carriage return, and the
Unicode space separators (including the no-break space, the ogham space,
the en-quad block, the line and paragraph separators, the narrow no-break
space, the medium mathematical space, the ideographic space and the
byte-order mark). -/
def isWsChar (c : Char) : Bool :=
  c = ' ' || c = '\t' || c = '\n' || c.toNat = 0x0B || c.toNat = 0x0C ||
  c = '\r' || c.toNat = 0xA0 || c.toNat = 0x1680 ||
  (0x2000 ≤ c.toNat && c.toNat ≤ 0x200A) ||
  c.toNat = 0x2028 || c.toNat = 0x2029 || c.toNat = 0x202F ||
  c.toNat = 0x205F || c.toNat = 0x3000 || c.toNat = 0xFEFF

/-- The apostrophe character, written by code point. -/
def apos : Char := Char.ofNat 39

/-- The backtick character, written by code point. -/
def btick : Char := Char.ofNat 96

/-- A straight quote character, double or single. -/
def isQuoteChar (c : Char) : Bool := c = '"' || c = apos

/-- Control characters removed by the first normalizer replacement:
the ASCII control range and the C1 control range. -/
def isCtrlChar (c : Char) : Bool :=
  c.toNat ≤ 0x1F || (0x7F ≤ c.toNat && c.toNat ≤ 0x9F)

/-- Zero-width characters removed by the second normalizer replacement. -/
def isZeroWidth (c : Char) : Bool :=
  (0x200B ≤ c.toNat && c.toNat ≤ 0x200D) || c.toNat = 0xFEFF

/-- The explicit punctuation allow-list of the normalizer's character
class. -/
def punctChars : Str :=
  ['.', ',', '!', '?', ';', ':', '(', ')', '-', apos, '"', '/',
   '&', '%', '$', '€', '£', '¥', '+', '*', '=', '@', '#']

/-- A character kept by the normalizer's restriction step: a letter, a
digit, whitespace, or a member of the punctuation allow-list.  Letters
and digits model the Unicode classes on their ASCII fragment. -/
def isAllowedChar (c : Char) : Bool :=
  c.isAlpha || c.isDigit || isWsChar c || punctChars.contains c

/-- Lowercasing of a single character, as the JavaScript `toLowerCase`
acts on the ASCII range. -/
def lowerChar (c : Char) : Char :=
  if 65 ≤ c.toNat ∧ c.toNat ≤ 90 then Char.ofNat (c.toNat + 32) else c

/-- Lowercasing of a string, character by character. -/
def lowerStr (s : Str) : Str := s.map lowerChar

/-- Drop a trailing run of characters satisfying `p`. -/
def dropTrailing (p : Char → Bool) (l : Str) : Str :=
  (l.reverse.dropWhile p).reverse

/-- The JavaScript `trim`: drop leading and trailing whitespace. -/
def trimStr (l : Str) : Str := dropTrailing isWsChar (l.dropWhile isWsChar)

/-- Strip a leading and a trailing run of quote characters, as the
replacement of the anchored quote pattern does. -/
def stripEdgeQuotes (l : Str) : Str :=
  dropTrailing isQuoteChar (l.dropWhile isQuoteChar)

/-- Consume characters up to and including the first closing parenthesis;
return the remainder, or `none` when no closing parenthesis occurs.  This
is the tail of one match of the parenthetical pattern. -/
def afterClose : Str → Option Str
  | [] => none
  | c :: t => if c = ')' then some t else afterClose t

/-- Attempt to match the parenthetical pattern at the head of the string:
an optional whitespace run, an opening parenthesis, then characters up to
the first closing parenthesis.  On success return the remainder of the
string after the match. -/
def tryParenMatch (s : Str) : Option Str :=
  match s.dropWhile isWsChar with
  | c :: t => if c = '(' then afterClose t else none
  | [] => none

/-- Remove every match of the parenthetical pattern, scanning left to
right as a global regular-expression replacement does.  The fuel
argument bounds the recursion and is instantiated with the string
length, which suffices because every step consumes at least one
character. -/
def removeParensAux : Nat → Str → Str
  | 0, s => s
  | _ + 1, [] => []
  | fuel + 1, c :: rest =>
    match tryParenMatch (c :: rest) with
    | some rest2 => removeParensAux fuel rest2
    | none => c :: removeParensAux fuel rest

/-- Remove every parenthetical group, with optional leading whitespace,
from the string. -/
def removeParens (s : Str) : Str := removeParensAux s.length s

/-- Collapse runs of whitespace to a single space.  The flag records
whether the previous character belonged to a whitespace run. -/
def collapseWsGo (prevWs : Bool) : Str → Str
  | [] => []
  | c :: t =>
    if isWsChar c then
      if prevWs then collapseWsGo true t else ' ' :: collapseWsGo true t
    else c :: collapseWsGo false t

/-- Replace every maximal whitespace run by one space. -/
def collapseWs (l : Str) : Str := collapseWsGo false l

/-- The Field Normalizer `normalizeCardText`: lowercase, strip control
and zero-width characters, strip parenthetical asides, strip surrounding
quotes, restrict to the allowed character class, collapse whitespace and
trim.  The empty string returns immediately. -/
def normalizeCardText (s : Str) : Str :=
  if s = [] then []
  else
    trimStr (collapseWs (List.filter isAllowedChar
      (stripEdgeQuotes (removeParens
        (List.filter (fun c => !isZeroWidth c)
          (List.filter (fun c => !isCtrlChar c) (lowerStr s)))))))

/-- Markdown emphasis, code, strike and heading marker characters removed
by the Noise Cleaner. -/
def mdChars : Str := ['*', '_', '~', btick, '#']

/-- Bullet glyphs recognised by the Noise Cleaner's list-marker pattern. -/
def isBulletChar (c : Char) : Bool :=
  c = '-' || c = '•' || c = '●' || c = '▪' || c = '▫' || c = '◦' ||
  c = '⦿' || c = '⦾'

/-- Strip one leading bullet marker: optional whitespace, a bullet glyph,
then optional whitespace.  When the pattern does not match, the line is
unchanged. -/
def stripBullet (l : Str) : Str :=
  match l.dropWhile isWsChar with
  | c :: t => if isBulletChar c then t.dropWhile isWsChar else l
  | [] => l

/-- Strip one leading numeric enumeration prefix: optional whitespace,
one or more digits, a period or closing parenthesis, then optional
whitespace. -/
def stripNumbering (l : Str) : Str :=
  let l1 := l.dropWhile isWsChar
  if (l1.takeWhile Char.isDigit) ≠ [] then
    match l1.dropWhile Char.isDigit with
    | c :: t => if c = '.' ∨ c = ')' then t.dropWhile isWsChar else l
    | [] => l
  else l

/-- Strip one leading alphabetic enumeration prefix: optional whitespace,
a single lowercase ASCII letter, a period or closing parenthesis, then
optional whitespace. -/
def stripLetterNumbering (l : Str) : Str :=
  match l.dropWhile isWsChar with
  | c :: d :: t =>
    if ('a' ≤ c ∧ c ≤ 'z') ∧ (d = '.' ∨ d = ')') then t.dropWhile isWsChar
    else l
  | _ => l

/-- The Noise Cleaner `cleanAIGeneratedText`: remove markdown markers,
one leading bullet, one leading numeric prefix, one leading alphabetic
prefix, edge quotes; collapse whitespace and trim.  The line-anchored
patterns are applied at the start of the string, since the parser feeds
the cleaner one line at a time. -/
def cleanAIGeneratedText (s : Str) : Str :=
  if s = [] then []
  else
    trimStr (collapseWs (stripEdgeQuotes
      (stripLetterNumbering (stripNumbering (stripBullet
        (List.filter (fun c => !mdChars.contains c) s))))))

/-- A flashcard candidate: a front text and a back text. -/
structure Card where
  front : Str
  back : Str
deriving DecidableEq, Repr

/-- Split a string into its newline-separated lines, as the JavaScript
`split` on a newline does: the empty string yields one empty line. -/
def splitLines : Str → List Str
  | [] => [[]]
  | c :: rest =>
    if c = '\n' then [] :: splitLines rest
    else
      match splitLines rest with
      | l :: ls => (c :: l) :: ls
      | [] => [[c]]

/-- Index of the first occurrence of `pat` as a contiguous substring of
the string, as the JavaScript `indexOf` computes it. -/
def subIdx (pat : Str) : Str → Option Nat
  | [] => if pat = [] then some 0 else none
  | c :: rest =>
    if pat.isPrefixOf (c :: rest) then some 0
    else (subIdx pat rest).map (· + 1)

/-- Whether `pat` occurs as a contiguous substring, as the JavaScript
`includes` decides it. -/
def containsSub (pat s : Str) : Bool := (subIdx pat s).isSome

/-- Whether the string starts with `pat`, as the JavaScript `startsWith`
decides it. -/
def startsWithSub (pat s : Str) : Bool := pat.isPrefixOf s

/-- The purely-numeric pattern of the Line Classifier: one or more
characters, each a digit, whitespace or a comma. -/
def isNumericLine (t : Str) : Bool :=
  t ≠ [] && t.all (fun c => c.isDigit || isWsChar c || c = ',')

/-- The Line Classifier's skip table, evaluated on the cleaned line `t`
and its lowercased form.  Any match rejects the line.  The conditions
appear in the order of the source disjunction. -/
def skipLine (t : Str) : Bool :=
  let low := lowerStr t
  containsSub "flashcard".toList low ||
  containsSub "here are".toList low ||
  containsSub "here is".toList low ||
  startsWithSub "okay".toList low ||
  startsWithSub "sure".toList low ||
  startsWithSub "certainly".toList low ||
  startsWithSub "of course".toList low ||
  containsSub "vocabulary".toList low ||
  containsSub "each with".toList low ||
  containsSub "different dutch".toList low ||
  containsSub "different english".toList low ||
  low = "cards:".toList ||
  low = "cards".toList ||
  low = "output".toList ||
  low = "topic:".toList ||
  startsWithSub "generated".toList low ||
  containsSub "format:".toList low ||
  containsSub "examples:".toList low ||
  containsSub "perfect examples".toList low ||
  startsWithSub "term |".toList low ||
  startsWithSub "translation |".toList low ||
  startsWithSub "explanation |".toList low ||
  startsWithSub "front |".toList low ||
  startsWithSub "back |".toList low ||
  startsWithSub "leftside |".toList low ||
  startsWithSub "rightside |".toList low ||
  startsWithSub "no numbering".toList low ||
  startsWithSub "name:".toList low ||
  startsWithSub "description:".toList low ||
  startsWithSub "rules:".toList low ||
  isNumericLine t ||
  decide (100 < t.length) ||
  containsSub "must create".toList low ||
  containsSub "copy this".toList low ||
  containsSub "each line".toList low ||
  containsSub "unique cards".toList low

/-- The ordered separator candidates of the Separator Splitter. -/
def separators : List Str :=
  [['|'], [' ', '|', ' '], [':'], [' ', '-', ' '], ['-'], ['\t'], ['='],
   [' ', '/', ' ']]

/-- Try the separator candidates in order.  A candidate applies when it
occurs in the line and splitting at its first occurrence yields two
non-empty, distinct trimmed halves; the first applicable candidate wins
and later ones are not examined. -/
def trySepList (t : Str) : List Str → Option (Str × Str)
  | [] => none
  | sep :: more =>
    match subIdx sep t with
    | some i =>
      let f := trimStr (t.take i)
      let b := trimStr (t.drop (i + sep.length))
      if f ≠ [] ∧ b ≠ [] ∧ f ≠ b then some (f, b) else trySepList t more
    | none => trySepList t more

/-- The Separator Splitter over the full ordered candidate list. -/
def trySeparators (t : Str) : Option (Str × Str) := trySepList t separators

/-- The fixed meta-word set of the Meta-word Filter. -/
def metaWords : List Str :=
  (["woorden", "woord", "tekst", "text", "word", "words",
    "translation", "vertaling", "vertalingen", "english", "dutch",
    "term", "definition", "front", "back",
    "leftside", "rightside", "example", "format",
    "native", "language", "taal"].map String.toList)

/-- Whether a normalized side is, lowercased and trimmed, exactly a
member of the meta-word set. -/
def isMetaSide (s : Str) : Bool := metaWords.contains (trimStr (lowerStr s))

/-- The Meta-word Filter test on a normalized pair: either side is a
whole-string meta-word.  The source also re-checks the same equalities
with an explicit scan of the word list; both clauses are kept. -/
def isMetaPair (f b : Str) : Bool :=
  isMetaSide f || isMetaSide b ||
  metaWords.any (fun w => w = trimStr (lowerStr f) || w = trimStr (lowerStr b))

/-- The final acceptance step: both normalized sides non-empty and
distinct, and the pair passes the Meta-word Filter. -/
def emitStep (f b : Str) : List Card :=
  if f ≠ [] ∧ b ≠ [] ∧ f ≠ b ∧ ¬isMetaPair f b = true then [⟨f, b⟩] else []

/-- Process one raw line of the response: clean it, classify it, split
it, normalize the halves and apply the final acceptance step.  A
rejected line contributes no cards. -/
def processLine (line : Str) : List Card :=
  let t := cleanAIGeneratedText line
  if t = [] then []
  else if t.length < 3 then []
  else if skipLine t then []
  else
    match trySeparators t with
    | none => []
    | some (f0, b0) => emitStep (normalizeCardText f0) (normalizeCardText b0)

/-- The parser `parseAndNormalizeFlashcards`: split the response into
lines and accumulate the cards contributed by each line in order. -/
def parseAndNormalizeFlashcards (s : Str) : List Card :=
  if s = [] then [] else (splitLines s).flatMap processLine

/-- Occurrence count of a lowercased back value across a candidate list,
the content of the first-pass count map of `removeDuplicateCards`. -/
def backCount (cards : List Card) (key : Str) : Nat :=
  cards.countP (fun c => lowerStr c.back = key)

/-- The seen-set key of a card: lowercased front, a pipe, lowercased
back. -/
def cardKey (c : Card) : Str := lowerStr c.front ++ '|' :: lowerStr c.back

/-- The second pass of the Deduplicator: skip a card whose key was
already seen or whose back occurs more than twice globally; otherwise
keep it and record its key. -/
def dedupGo (counts : Str → Nat) : List Str → List Card → List Card
  | _, [] => []
  | seen, c :: rest =>
    if cardKey c ∈ seen then dedupGo counts seen rest
    else if 2 < counts (lowerStr c.back) then dedupGo counts seen rest
    else c :: dedupGo counts (cardKey c :: seen) rest

/-- The Deduplicator `removeDuplicateCards`: count every lowercased back
value over the whole list, then filter in order. -/
def removeDuplicateCards (cards : List Card) : List Card :=
  dedupGo (backCount cards) [] cards

/-- The full pipeline: parse and normalize, then deduplicate. -/
def fullPipeline (s : Str) : List Card :=
  removeDuplicateCards (parseAndNormalizeFlashcards s)

/-- The claimed round-trip serialization of one card: front, a spaced
pipe, back. -/
def lineOf (c : Card) : Str := c.front ++ ' ' :: '|' :: ' ' :: c.back

/-- Join serialized cards with newlines, one card per line. -/
def joinLines : List Str → Str
  | [] => []
  | [l] => l
  | l :: l2 :: ls => l ++ '\n' :: joinLines (l2 :: ls)

/-- The claimed round-trip serialization of a card batch. -/
def joinCards (cards : List Card) : Str := joinLines (cards.map lineOf)

/-- No closing parenthesis occurs in the string. -/
def noRpar (s : Str) : Bool := s.all (fun c => c ≠ ')')

/-- No opening parenthesis is followed, anywhere later in the string, by
a closing parenthesis; equivalently, nothing after the first opening
parenthesis is a closing one.  Strings in the image of the parenthetical
removal have this shape. -/
def parenFreeB : Str → Bool
  | [] => true
  | c :: t => if c = '(' then noRpar t else parenFreeB t

/-- Adjacent characters are not both whitespace. -/
def noTwoWs (a b : Char) : Prop := ¬(isWsChar a = true ∧ isWsChar b = true)

/-- The string neither starts nor ends with a quote character. -/
def noEdgeQuote (l : Str) : Bool :=
  (match l.head? with
   | some c => !isQuoteChar c
   | none => true) &&
  (match l.getLast? with
   | some c => !isQuoteChar c
   | none => true)

/-- A card whose serialized line passes back through the pipeline
unchanged: both sides are non-empty, distinct fixed points of the Field
Normalizer and of trimming, free of newlines, the front free of pipes,
the joined line is a fixed point of the Noise Cleaner, survives the Line
Classifier, and neither side is a meta-word. -/
def stableCard (c : Card) : Bool :=
  decide (c.front ≠ []) && decide (c.back ≠ []) &&
  decide (c.front ≠ c.back) &&
  decide ('\n' ∉ c.front) && decide ('\n' ∉ c.back) &&
  decide ('|' ∉ c.front) &&
  decide (trimStr c.front = c.front) && decide (trimStr c.back = c.back) &&
  decide (normalizeCardText c.front = c.front) &&
  decide (normalizeCardText c.back = c.back) &&
  decide (cleanAIGeneratedText (lineOf c) = lineOf c) &&
  !skipLine (lineOf c) &&
  !isMetaPair c.front c.back

/-! Lemmas about the Deduplicator. -/

theorem dedupGo_sublist (counts : Str → Nat) (seen : List Str)
    (l : List Card) : (dedupGo counts seen l).Sublist l := by
  induction l generalizing seen with
  | nil => simp [dedupGo]
  | cons c rest ih =>
    unfold dedupGo
    by_cases h1 : cardKey c ∈ seen
    · simp only [if_pos h1]
      exact (ih seen).cons c
    · simp only [if_neg h1]
      by_cases h2 : 2 < counts (lowerStr c.back)
      · simp only [if_pos h2]
        exact (ih seen).cons c
      · simp only [if_neg h2]
        exact (ih (cardKey c :: seen)).cons₂ c

theorem dedupGo_back_le (counts : Str → Nat) (seen : List Str)
    (l : List Card) (c : Card) (hc : c ∈ dedupGo counts seen l) :
    counts (lowerStr c.back) ≤ 2 := by
  induction l generalizing seen with
  | nil => simp [dedupGo] at hc
  | cons d rest ih =>
    unfold dedupGo at hc
    by_cases h1 : cardKey d ∈ seen
    · simp only [if_pos h1] at hc
      exact ih seen hc
    · simp only [if_neg h1] at hc
      by_cases h2 : 2 < counts (lowerStr d.back)
      · simp only [if_pos h2] at hc
        exact ih seen hc
      · simp only [if_neg h2, List.mem_cons] at hc
        rcases hc with rfl | hc
        · omega
        · exact ih (cardKey d :: seen) hc

theorem removeDuplicateCards_back_le (cards : List Card) (c : Card)
    (hc : c ∈ removeDuplicateCards cards) :
    backCount cards (lowerStr c.back) ≤ 2 :=
  dedupGo_back_le (backCount cards) [] cards c hc

/-! Claim theorems for the Deduplicator. -/

/-- Claim C1, counterexample.  With four pairs sharing the lowercased
back value, the Deduplicator keeps none of them, not the first two in
original order. -/
theorem claim1_counterexample :
    removeDuplicateCards
      [⟨"a".toList, "x".toList⟩, ⟨"b".toList, "x".toList⟩,
       ⟨"c".toList, "x".toList⟩, ⟨"d".toList, "x".toList⟩] = [] ∧
    removeDuplicateCards
      [⟨"a".toList, "x".toList⟩, ⟨"b".toList, "x".toList⟩,
       ⟨"c".toList, "x".toList⟩, ⟨"d".toList, "x".toList⟩] ≠
      [⟨"a".toList, "x".toList⟩, ⟨"b".toList, "x".toList⟩] := by
  constructor
  · rfl
  · decide

/-- Claim C1 as amended: when a single lowercased back value occurs on
four pairs of the candidate list, the Deduplicator keeps none of those
pairs; the output contains zero cards with that back value. -/
theorem claim1_amended (cards : List Card) (key : Str)
    (h4 : backCount cards key = 4) :
    (removeDuplicateCards cards).countP (fun c => lowerStr c.back = key)
      = 0 := by
  rw [List.countP_eq_zero]
  intro c hc heq
  have hle := removeDuplicateCards_back_le cards c hc
  rw [decide_eq_true_eq] at heq
  rw [heq, h4] at hle
  omega

/-- Witness for the amended claim C1 at a concrete four-pair list. -/
theorem claim1_amended_witness :
    (removeDuplicateCards
      [⟨"a".toList, "x".toList⟩, ⟨"b".toList, "x".toList⟩,
       ⟨"c".toList, "x".toList⟩, ⟨"d".toList, "x".toList⟩]).countP
      (fun c => lowerStr c.back = "x".toList) = 0 :=
  claim1_amended _ _ (by decide)

/-- Claim C9: the Deduplicator output is a sublist of its input, so it
only removes cards, never reorders the survivors and never modifies a
surviving card. -/
theorem claim9_dedup_sublist (cards : List Card) :
    (removeDuplicateCards cards).Sublist cards :=
  dedupGo_sublist (backCount cards) [] cards

/-- Claim C10: a lowercased back value occurring on more than two cards,
exact duplicate copies included, is eliminated entirely by the
Deduplicator; no collapsed copy survives. -/
theorem claim10_ceiling_counts_duplicates (cards : List Card) (key : Str)
    (h3 : 2 < backCount cards key) :
    (removeDuplicateCards cards).countP (fun c => lowerStr c.back = key)
      = 0 := by
  rw [List.countP_eq_zero]
  intro c hc heq
  have hle := removeDuplicateCards_back_le cards c hc
  rw [decide_eq_true_eq] at heq
  rw [heq] at hle
  omega

/-- Witness for claim C10 at a list holding the same pair three times. -/
theorem claim10_witness :
    (removeDuplicateCards
      [⟨"a".toList, "x".toList⟩, ⟨"a".toList, "x".toList⟩,
       ⟨"a".toList, "x".toList⟩]).countP
      (fun c => lowerStr c.back = "x".toList) = 0 :=
  claim10_ceiling_counts_duplicates _ _ (by decide)

/-- Claim C2: the full pipeline on the three-line sample input yields
exactly the three expected cards in order. -/
theorem claim2_sample_pipeline :
    fullPipeline "apple | appel\nbread | brood\ncheese | kaas".toList =
      [⟨"apple".toList, "appel".toList⟩,
       ⟨"bread".toList, "brood".toList⟩,
       ⟨"cheese".toList, "kaas".toList⟩] := by
  rfl

/-! Claims about the Line Classifier and the Separator Splitter. -/

/-- Claim C6, counterexample.  The line `12:30` is made of digits and
punctuation only, yet the purely-numeric pattern covers only digits,
whitespace and commas, so the line splits on the colon and contributes a
card. -/
theorem claim6_counterexample :
    processLine "12:30".toList = [⟨"12".toList, "30".toList⟩] ∧
    processLine "12:30".toList ≠ [] := by
  constructor
  · rfl
  · decide

/-- Claim C6 as amended: an input line whose cleaned form consists
purely of digits, whitespace and commas contributes zero cards. -/
theorem claim6_amended (line : Str)
    (h : (cleanAIGeneratedText line).all
        (fun c => c.isDigit || isWsChar c || c = ',') = true) :
    processLine line = [] := by
  unfold processLine
  by_cases h0 : cleanAIGeneratedText line = []
  · simp [h0]
  · by_cases h3 : (cleanAIGeneratedText line).length < 3
    · simp [h0, h3]
    · have hnum : isNumericLine (cleanAIGeneratedText line) = true := by
        unfold isNumericLine
        simp only [h, Bool.and_true, decide_eq_true_eq]
        exact h0
      have hskip : skipLine (cleanAIGeneratedText line) = true := by
        unfold skipLine
        simp [hnum]
      simp [h0, h3, hskip]

/-- Witness for the amended claim C6 at the line `12,30`. -/
theorem claim6_amended_witness : processLine "12,30".toList = [] :=
  claim6_amended _ (by decide)

/-- Claim C5, counterexample.  The line `|a:b` is accepted by the
classifier and contains both a pipe and a colon, but the pipe split
yields an empty front, so the splitter falls through to the colon. -/
theorem claim5_counterexample :
    skipLine "|a:b".toList = false ∧
    '|' ∈ "|a:b".toList ∧ ':' ∈ "|a:b".toList ∧
    trySeparators "|a:b".toList = some ("|a".toList, "b".toList) ∧
    ("|a".toList, "b".toList) ≠
      (trimStr ("|a:b".toList.take 0), trimStr ("|a:b".toList.drop 1)) := by
  refine ⟨by decide, by decide, by decide, rfl, by decide⟩

/-- Claim C5 as amended: an accepted line containing both a pipe and a
colon splits on the pipe provided splitting at the first pipe yields
two non-empty, distinct trimmed halves; otherwise a later separator may
apply. -/
theorem claim5_amended (t : Str) (hacc : skipLine t = false)
    (hpipe : '|' ∈ t) (hcolon : ':' ∈ t)
    (i : Nat) (hi : subIdx ['|'] t = some i)
    (hf : trimStr (t.take i) ≠ [])
    (hb : trimStr (t.drop (i + 1)) ≠ [])
    (hfb : trimStr (t.take i) ≠ trimStr (t.drop (i + 1))) :
    trySeparators t = some (trimStr (t.take i), trimStr (t.drop (i + 1))) := by
  unfold trySeparators separators
  unfold trySepList
  rw [hi]
  simp only [List.length_singleton]
  rw [if_pos ⟨hf, hb, hfb⟩]

/-- Witness for the amended claim C5 at the line `a|:b`. -/
theorem claim5_amended_witness :
    trySeparators "a|:b".toList =
      some (trimStr ("a|:b".toList.take 1), trimStr ("a|:b".toList.drop 2)) :=
  claim5_amended _ (by decide) (by decide) (by decide) 1 (by decide)
    (by decide) (by decide) (by decide)

/-- Claim C7: a pair is dropped by the final acceptance step whenever
either normalized side is, as a whole string, a meta-word; when neither
side is a whole-string meta-word the step keeps exactly the pairs with
two non-empty distinct sides, so a side that merely contains a meta-word
as a proper substring is not dropped.  Concretely, `term | stroopwafel`
and `x: term` contribute nothing, while `stroopwafel | syrup waffle` and
`backpack | rugzak` (whose front contains the meta-word `back` as a
proper substring) are kept. -/
theorem claim7_meta_whole_match :
    (∀ f b, isMetaSide f = true ∨ isMetaSide b = true → emitStep f b = []) ∧
    (∀ f b, isMetaPair f b = false →
      emitStep f b =
        if f ≠ [] ∧ b ≠ [] ∧ f ≠ b then [⟨f, b⟩] else []) ∧
    processLine "term | stroopwafel".toList = [] ∧
    processLine "x: term".toList = [] ∧
    processLine "stroopwafel | syrup waffle".toList =
      [⟨"stroopwafel".toList, "syrup waffle".toList⟩] ∧
    processLine "backpack | rugzak".toList =
      [⟨"backpack".toList, "rugzak".toList⟩] := by
  refine ⟨?_, ?_, rfl, rfl, rfl, rfl⟩
  · intro f b hmeta
    have hpair : isMetaPair f b = true := by
      unfold isMetaPair
      rcases hmeta with h | h <;> simp [h]
    unfold emitStep
    rw [hpair]
    simp
  · intro f b hpair
    unfold emitStep
    rw [hpair]
    by_cases h : f ≠ [] ∧ b ≠ [] ∧ f ≠ b
    · rw [if_pos ⟨h.1, h.2.1, h.2.2, by simp [hpair]⟩, if_pos h]
    · rw [if_neg (fun hc => h ⟨hc.1, hc.2.1, hc.2.2.1⟩), if_neg h]

/-- Witness for claim C7 at concrete meta and non-meta pairs. -/
theorem claim7_witness :
    emitStep "term".toList "stroopwafel".toList = [] ∧
    emitStep "backpack".toList "rugzak".toList =
      (if "backpack".toList ≠ [] ∧ "rugzak".toList ≠ [] ∧
          "backpack".toList ≠ "rugzak".toList
       then [⟨"backpack".toList, "rugzak".toList⟩] else []) :=
  ⟨claim7_meta_whole_match.1 _ _ (Or.inl (by decide)),
   claim7_meta_whole_match.2.1 _ _ (by decide)⟩

/-! Character-level lemmas. -/

theorem toNat_ofNat_lt (n : Nat) (h : n < 55296) : (Char.ofNat n).toNat = n := by
  unfold Char.ofNat
  rw [dif_pos (Or.inl h)]
  rfl

theorem lowerChar_eq_self (c : Char)
    (h : ¬(65 ≤ c.toNat ∧ c.toNat ≤ 90)) : lowerChar c = c := by
  unfold lowerChar
  rw [if_neg h]

theorem lowerChar_not_upper (c : Char) :
    ¬(65 ≤ (lowerChar c).toNat ∧ (lowerChar c).toNat ≤ 90) := by
  unfold lowerChar
  by_cases h : 65 ≤ c.toNat ∧ c.toNat ≤ 90
  · rw [if_pos h, toNat_ofNat_lt _ (by omega)]
    omega
  · rw [if_neg h]
    exact h

theorem lowerChar_idem (c : Char) :
    lowerChar (lowerChar c) = lowerChar c :=
  lowerChar_eq_self _ (lowerChar_not_upper c)

theorem lowerStr_eq_self {l : Str} (h : ∀ c ∈ l, lowerChar c = c) :
    lowerStr l = l := by
  induction l with
  | nil => rfl
  | cons c t ih =>
    show lowerChar c :: lowerStr t = c :: t
    rw [h c (List.mem_cons_self c t), ih (fun d hd => h d (List.mem_cons_of_mem c hd))]

/-! Sublist lemmas for the normalizer steps. -/

theorem dropTrailing_sublist (p : Char → Bool) (l : Str) :
    (dropTrailing p l).Sublist l := by
  unfold dropTrailing
  conv_rhs => rw [← l.reverse_reverse]
  exact List.reverse_sublist.mpr ((List.dropWhile_suffix p).sublist)

theorem trimStr_sublist (l : Str) : (trimStr l).Sublist l :=
  (dropTrailing_sublist _ _).trans ((List.dropWhile_suffix _).sublist)

theorem stripEdgeQuotes_sublist (l : Str) : (stripEdgeQuotes l).Sublist l :=
  (dropTrailing_sublist _ _).trans ((List.dropWhile_suffix _).sublist)

theorem afterClose_suffix {t r : Str} (h : afterClose t = some r) : r <:+ t := by
  induction t with
  | nil => simp [afterClose] at h
  | cons c t ih =>
    unfold afterClose at h
    by_cases hc : c = ')'
    · rw [if_pos hc] at h
      cases h
      exact List.suffix_cons _ _
    · rw [if_neg hc] at h
      exact (ih h).trans (List.suffix_cons c t)

theorem afterClose_length {t r : Str} (h : afterClose t = some r) :
    r.length < t.length := by
  induction t with
  | nil => simp [afterClose] at h
  | cons c t ih =>
    unfold afterClose at h
    by_cases hc : c = ')'
    · rw [if_pos hc] at h
      cases h
      simp
    · rw [if_neg hc] at h
      have := ih h
      simp only [List.length_cons]
      omega

theorem tryParenMatch_sublist {s r : Str} (h : tryParenMatch s = some r) :
    r.Sublist s := by
  unfold tryParenMatch at h
  cases hd : s.dropWhile isWsChar with
  | nil => rw [hd] at h; cases h
  | cons c t =>
    rw [hd] at h
    dsimp only at h
    by_cases hc : c = '('
    · rw [if_pos hc] at h
      have h2 : (c :: t) <:+ s := hd ▸ List.dropWhile_suffix isWsChar
      exact (afterClose_suffix h).sublist.trans
        ((List.suffix_cons c t).sublist.trans h2.sublist)
    · rw [if_neg hc] at h
      cases h

theorem tryParenMatch_length {s r : Str} (h : tryParenMatch s = some r) :
    r.length + 2 ≤ s.length := by
  unfold tryParenMatch at h
  cases hd : s.dropWhile isWsChar with
  | nil => rw [hd] at h; cases h
  | cons c t =>
    rw [hd] at h
    dsimp only at h
    by_cases hc : c = '('
    · rw [if_pos hc] at h
      have h1 := afterClose_length h
      have h2 : (c :: t).length ≤ s.length :=
        (hd ▸ List.dropWhile_suffix isWsChar (l := s)).length_le
      simp only [List.length_cons] at h2
      omega
    · rw [if_neg hc] at h
      cases h

theorem removeParensAux_succ_cons (fuel : Nat) (c : Char) (rest : Str) :
    removeParensAux (fuel + 1) (c :: rest) =
      match tryParenMatch (c :: rest) with
      | some rest2 => removeParensAux fuel rest2
      | none => c :: removeParensAux fuel rest := rfl

theorem removeParensAux_sublist (fuel : Nat) (s : Str) :
    (removeParensAux fuel s).Sublist s := by
  induction fuel generalizing s with
  | zero => exact List.Sublist.refl _
  | succ fuel ih =>
    cases s with
    | nil => exact List.Sublist.refl _
    | cons c rest =>
      rw [removeParensAux_succ_cons]
      cases htp : tryParenMatch (c :: rest) with
      | some rest2 =>
        dsimp only
        exact (ih rest2).trans (tryParenMatch_sublist htp)
      | none =>
        dsimp only
        exact (ih rest).cons₂ c

theorem removeParens_sublist (s : Str) : (removeParens s).Sublist s :=
  removeParensAux_sublist _ _

/-! Lemmas about whitespace collapsing. -/

theorem collapseWsGo_forall (p : Char → Prop) (hsp : p ' ') (l : Str)
    (hl : ∀ c ∈ l, isWsChar c = false → p c) :
    ∀ b, ∀ c ∈ collapseWsGo b l, p c := by
  induction l with
  | nil => intro b c hc; simp [collapseWsGo] at hc
  | cons d t ih =>
    intro b c hc
    have ht : ∀ c ∈ t, isWsChar c = false → p c :=
      fun x hx => hl x (List.mem_cons_of_mem d hx)
    unfold collapseWsGo at hc
    by_cases hw : isWsChar d
    · rw [if_pos hw] at hc
      cases b with
      | true => exact ih ht true c hc
      | false =>
        rcases List.mem_cons.mp hc with rfl | hc
        · exact hsp
        · exact ih ht true c hc
    · rw [if_neg hw] at hc
      rcases List.mem_cons.mp hc with rfl | hc
      · exact hl _ (List.mem_cons_self _ _) (by simpa using hw)
      · exact ih ht false c hc

/-! The Field Normalizer produces lowercase-fixed strings. -/

theorem normalize_chars_lower_fixed (s : Str) :
    ∀ c ∈ normalizeCardText s, lowerChar c = c := by
  by_cases h0 : s = []
  · subst h0
    intro c hc
    simp [normalizeCardText] at hc
  · intro c hc
    unfold normalizeCardText at hc
    rw [if_neg h0] at hc
    have hc1 := (trimStr_sublist _).subset hc
    refine collapseWsGo_forall (fun x => lowerChar x = x) (by decide) _
      ?_ false c hc1
    intro d hd _
    have hd1 := (List.filter_sublist _).subset hd
    have hd2 := (stripEdgeQuotes_sublist _).subset hd1
    have hd3 := (removeParens_sublist _).subset hd2
    have hd4 := (List.filter_sublist _).subset hd3
    have hd5 := (List.filter_sublist _).subset hd4
    rcases List.mem_map.mp hd5 with ⟨a, _, rfl⟩
    exact lowerChar_idem a

/-! Dissection of a membership in the parser output. -/

theorem mem_processLine {line : Str} {c : Card} (hc : c ∈ processLine line) :
    ∃ f0 b0,
      trySeparators (cleanAIGeneratedText line) = some (f0, b0) ∧
      c = ⟨normalizeCardText f0, normalizeCardText b0⟩ ∧
      normalizeCardText f0 ≠ [] ∧ normalizeCardText b0 ≠ [] ∧
      normalizeCardText f0 ≠ normalizeCardText b0 ∧
      isMetaPair (normalizeCardText f0) (normalizeCardText b0) = false := by
  unfold processLine at hc
  by_cases h0 : cleanAIGeneratedText line = []
  · simp [h0] at hc
  · rw [if_neg h0] at hc
    by_cases h3 : (cleanAIGeneratedText line).length < 3
    · simp [h3] at hc
    · rw [if_neg h3] at hc
      by_cases hs : skipLine (cleanAIGeneratedText line)
      · simp [hs] at hc
      · rw [if_neg hs] at hc
        cases htry : trySeparators (cleanAIGeneratedText line) with
        | none => rw [htry] at hc; cases hc
        | some p =>
          rw [htry] at hc
          obtain ⟨f0, b0⟩ := p
          dsimp only at hc
          refine ⟨f0, b0, rfl, ?_⟩
          unfold emitStep at hc
          by_cases hcond : normalizeCardText f0 ≠ [] ∧
              normalizeCardText b0 ≠ [] ∧
              normalizeCardText f0 ≠ normalizeCardText b0 ∧
              ¬isMetaPair (normalizeCardText f0) (normalizeCardText b0) = true
          · rw [if_pos hcond] at hc
            rcases List.mem_singleton.mp hc with rfl
            exact ⟨rfl, hcond.1, hcond.2.1, hcond.2.2.1,
              Bool.not_eq_true _ ▸ hcond.2.2.2⟩
          · rw [if_neg hcond] at hc
            cases hc

theorem mem_parse {input : Str} {c : Card}
    (hc : c ∈ parseAndNormalizeFlashcards input) :
    ∃ line ∈ splitLines input, c ∈ processLine line := by
  unfold parseAndNormalizeFlashcards at hc
  by_cases h0 : input = []
  · simp [h0] at hc
  · rw [if_neg h0] at hc
    exact List.mem_flatMap.mp hc

/-- Claim C8: every card emitted by the parser has a non-empty front, a
non-empty back, and a front differing from the back even under
case-insensitive comparison. -/
theorem claim8_card_invariant (input : Str) (c : Card)
    (hc : c ∈ parseAndNormalizeFlashcards input) :
    c.front ≠ [] ∧ c.back ≠ [] ∧ lowerStr c.front ≠ lowerStr c.back := by
  obtain ⟨line, _, hcl⟩ := mem_parse hc
  obtain ⟨f0, b0, _, rfl, hf, hb, hfb, _⟩ := mem_processLine hcl
  refine ⟨hf, hb, ?_⟩
  rw [lowerStr_eq_self (normalize_chars_lower_fixed f0),
    lowerStr_eq_self (normalize_chars_lower_fixed b0)]
  exact hfb

/-- Witness for claim C8 at a concrete one-line input. -/
theorem claim8_witness :
    ("a".toList : Str) ≠ [] ∧ ("b".toList : Str) ≠ [] ∧
    lowerStr "a".toList ≠ lowerStr "b".toList :=
  claim8_card_invariant "a | b".toList ⟨"a".toList, "b".toList⟩ (by decide)

/-! Lemmas about paren-freedom: the image of the parenthetical removal
has no opening parenthesis followed by a later closing one, and the
removal is the identity on such strings. -/

theorem noRpar_iff {s : Str} : noRpar s = true ↔ ∀ c ∈ s, c ≠ ')' := by
  simp [noRpar, List.all_eq_true]

theorem noRpar_sublist {t s : Str} (h : t.Sublist s)
    (hs : noRpar s = true) : noRpar t = true :=
  noRpar_iff.mpr fun c hc => noRpar_iff.mp hs c (h.subset hc)

theorem parenFreeB_cons (c : Char) (t : Str) :
    parenFreeB (c :: t) = if c = '(' then noRpar t else parenFreeB t := rfl

theorem parenFreeB_of_noRpar {s : Str} (h : noRpar s = true) :
    parenFreeB s = true := by
  induction s with
  | nil => rfl
  | cons c t ih =>
    have ht : noRpar t = true :=
      noRpar_sublist (List.sublist_cons_self c t) h
    rw [parenFreeB_cons]
    by_cases hc : c = '('
    · rw [if_pos hc]; exact ht
    · rw [if_neg hc]; exact ih ht

theorem parenFreeB_tail {c : Char} {t : Str}
    (h : parenFreeB (c :: t) = true) : parenFreeB t = true := by
  rw [parenFreeB_cons] at h
  by_cases hc : c = '('
  · rw [if_pos hc] at h; exact parenFreeB_of_noRpar h
  · rw [if_neg hc] at h; exact h

theorem parenFreeB_cons_open {t : Str}
    (h : parenFreeB ('(' :: t) = true) : noRpar t = true := by
  rw [parenFreeB_cons, if_pos rfl] at h
  exact h

theorem parenFreeB_sublist {t s : Str} (h : t.Sublist s)
    (hs : parenFreeB s = true) : parenFreeB t = true := by
  induction h with
  | slnil => rfl
  | cons a h ih => exact ih (parenFreeB_tail hs)
  | cons₂ a h ih =>
    rw [parenFreeB_cons]
    by_cases ha : a = '('
    · subst ha
      rw [if_pos rfl]
      exact noRpar_sublist h (parenFreeB_cons_open hs)
    · rw [if_neg ha]
      rw [parenFreeB_cons, if_neg ha] at hs
      exact ih hs

theorem afterClose_none_iff {t : Str} :
    afterClose t = none ↔ noRpar t = true := by
  induction t with
  | nil => simp [afterClose, noRpar]
  | cons c t ih =>
    unfold afterClose
    by_cases hc : c = ')'
    · rw [if_pos hc]
      simp [noRpar, hc]
    · rw [if_neg hc, ih, noRpar_iff, noRpar_iff]
      constructor
      · intro h x hx
        rcases List.mem_cons.mp hx with rfl | hx
        · exact hc
        · exact h x hx
      · intro h x hx
        exact h x (List.mem_cons_of_mem c hx)

theorem tryParenMatch_none_of_parenFree {s : Str}
    (hs : parenFreeB s = true) : tryParenMatch s = none := by
  unfold tryParenMatch
  cases hd : s.dropWhile isWsChar with
  | nil => rfl
  | cons c t =>
    dsimp only
    have hsuf : (c :: t).Sublist s :=
      (hd ▸ List.dropWhile_suffix isWsChar).sublist
    have hpf : parenFreeB (c :: t) = true := parenFreeB_sublist hsuf hs
    by_cases hc : c = '('
    · rw [if_pos hc]
      subst hc
      exact afterClose_none_iff.mpr (parenFreeB_cons_open hpf)
    · rw [if_neg hc]

theorem removeParensAux_parenFree (fuel : Nat) (s : Str)
    (hlen : s.length ≤ fuel) :
    parenFreeB (removeParensAux fuel s) = true := by
  induction fuel generalizing s with
  | zero =>
    have : s = [] := List.length_eq_zero.mp (Nat.le_zero.mp hlen)
    subst this
    rfl
  | succ fuel ih =>
    cases s with
    | nil => rfl
    | cons c rest =>
      rw [removeParensAux_succ_cons]
      cases htp : tryParenMatch (c :: rest) with
      | some rest2 =>
        dsimp only
        have := tryParenMatch_length htp
        simp only [List.length_cons] at hlen this
        exact ih rest2 (by omega)
      | none =>
        dsimp only
        simp only [List.length_cons] at hlen
        have hrest : parenFreeB (removeParensAux fuel rest) = true :=
          ih rest (by omega)
        rw [parenFreeB_cons]
        by_cases hc : c = '('
        · rw [if_pos hc]
          subst hc
          unfold tryParenMatch at htp
          rw [List.dropWhile_cons, if_neg (by decide)] at htp
          dsimp only at htp
          rw [if_pos rfl] at htp
          exact noRpar_sublist (removeParensAux_sublist fuel rest)
            (afterClose_none_iff.mp htp)
        · rw [if_neg hc]
          exact hrest

theorem removeParens_parenFree (s : Str) :
    parenFreeB (removeParens s) = true :=
  removeParensAux_parenFree s.length s (Nat.le_refl _)

theorem removeParensAux_eq_self (fuel : Nat) (s : Str)
    (hs : parenFreeB s = true) : removeParensAux fuel s = s := by
  induction fuel generalizing s with
  | zero => rfl
  | succ fuel ih =>
    cases s with
    | nil => rfl
    | cons c rest =>
      rw [removeParensAux_succ_cons, tryParenMatch_none_of_parenFree hs]
      dsimp only
      rw [ih rest (parenFreeB_tail hs)]

theorem removeParens_eq_self {s : Str} (hs : parenFreeB s = true) :
    removeParens s = s :=
  removeParensAux_eq_self _ _ hs

/-! Lemmas about whitespace collapsing: the output has only single
spaces as whitespace, never two adjacent, and such strings are fixed
points. -/

theorem collapseWsGo_space (l : Str) (b : Bool) :
    ∀ c ∈ collapseWsGo b l, isWsChar c = true → c = ' ' := by
  intro c hc
  refine collapseWsGo_forall (fun x => isWsChar x = true → x = ' ')
    (fun _ => rfl) l ?_ b c hc
  intro d _ hd hw
  rw [hd] at hw
  cases hw

theorem collapseWsGo_parenFree {l : Str} (hl : parenFreeB l = true)
    (b : Bool) : parenFreeB (collapseWsGo b l) = true := by
  induction l generalizing b with
  | nil => rfl
  | cons c t ih =>
    unfold collapseWsGo
    by_cases hw : isWsChar c
    · rw [if_pos hw]
      have hc : c ≠ '(' := by
        intro h
        rw [h] at hw
        exact absurd hw (by decide)
      rw [parenFreeB_cons, if_neg hc] at hl
      cases b with
      | true => exact ih hl true
      | false =>
        rw [if_neg Bool.false_ne_true, parenFreeB_cons, if_neg (by decide)]
        exact ih hl true
    · rw [if_neg hw]
      rw [parenFreeB_cons]
      rw [parenFreeB_cons] at hl
      by_cases hc : c = '('
      · rw [if_pos hc]
        rw [if_pos hc] at hl
        rw [noRpar_iff]
        intro x hx
        refine collapseWsGo_forall (fun y => y ≠ ')') (by decide) t ?_ false x hx
        intro d hd _
        exact noRpar_iff.mp hl d hd
      · rw [if_neg hc]
        rw [if_neg hc] at hl
        exact ih hl false

theorem collapseWsGo_true_head (l : Str) :
    ∀ x ∈ (collapseWsGo true l).head?, isWsChar x = false := by
  induction l with
  | nil => intro x hx; cases hx
  | cons c t ih =>
    intro x hx
    unfold collapseWsGo at hx
    by_cases hw : isWsChar c
    · rw [if_pos hw] at hx
      exact ih x hx
    · rw [if_neg hw] at hx
      cases hx
      simpa using hw

theorem collapseWsGo_chain (l : Str) (b : Bool) :
    List.Chain' noTwoWs (collapseWsGo b l) := by
  induction l generalizing b with
  | nil => exact List.chain'_nil
  | cons c t ih =>
    unfold collapseWsGo
    by_cases hw : isWsChar c
    · rw [if_pos hw]
      cases b with
      | true => exact ih true
      | false =>
        rw [if_neg Bool.false_ne_true, List.chain'_cons']
        refine ⟨?_, ih true⟩
        intro y hy
        have := collapseWsGo_true_head t y hy
        intro hcon
        rw [this] at hcon
        cases hcon.2
    · rw [if_neg hw]
      rw [List.chain'_cons']
      refine ⟨?_, ih false⟩
      intro y _
      intro hcon
      rw [Bool.not_eq_true] at hw
      rw [hw] at hcon
      cases hcon.1

theorem collapseWsGo_true_eq_false {l : Str}
    (h : ∀ x ∈ l.head?, isWsChar x = false) :
    collapseWsGo true l = collapseWsGo false l := by
  cases l with
  | nil => rfl
  | cons d t =>
    have hd : isWsChar d = false := h d rfl
    unfold collapseWsGo
    rw [if_neg (by simp [hd]), if_neg (by simp [hd])]

theorem collapseWsGo_eq_self {l : Str}
    (hsp : ∀ c ∈ l, isWsChar c = true → c = ' ')
    (hch : List.Chain' noTwoWs l) : collapseWsGo false l = l := by
  induction l with
  | nil => rfl
  | cons c t ih =>
    have hspt : ∀ x ∈ t, isWsChar x = true → x = ' ' :=
      fun x hx => hsp x (List.mem_cons_of_mem c hx)
    have hcht : List.Chain' noTwoWs t := (List.chain'_cons'.mp hch).2
    unfold collapseWsGo
    by_cases hw : isWsChar c
    · rw [if_pos hw]
      have hc : c = ' ' := hsp c (List.mem_cons_self _ _) hw
      have hhead : ∀ x ∈ t.head?, isWsChar x = false := by
        intro x hx
        have := (List.chain'_cons'.mp hch).1 x hx
        unfold noTwoWs at this
        by_cases hxw : isWsChar x
        · exact absurd ⟨hw, hxw⟩ this
        · simpa using hxw
      rw [if_neg Bool.false_ne_true, collapseWsGo_true_eq_false hhead,
        ih hspt hcht, hc]
    · rw [if_neg hw, ih hspt hcht]

/-! Lemmas about trimming and edge stripping. -/

theorem dropWhile_eq_self_of_head {p : Char → Bool} {l : Str}
    (h : ∀ x ∈ l.head?, p x = false) : l.dropWhile p = l := by
  cases l with
  | nil => rfl
  | cons c t =>
    rw [List.dropWhile_cons, if_neg (by simp [h c rfl])]

theorem head?_dropWhile_not (p : Char → Bool) (l : Str) :
    ∀ x ∈ (l.dropWhile p).head?, p x = false := by
  induction l with
  | nil => intro x hx; cases hx
  | cons c t ih =>
    intro x hx
    rw [List.dropWhile_cons] at hx
    by_cases hp : p c
    · rw [if_pos hp] at hx
      exact ih x hx
    · rw [if_neg hp] at hx
      cases hx
      simpa using hp

theorem dropTrailing_eq_self_of_getLast {p : Char → Bool} {l : Str}
    (h : ∀ x ∈ l.getLast?, p x = false) : dropTrailing p l = l := by
  unfold dropTrailing
  rw [dropWhile_eq_self_of_head (by rw [List.head?_reverse]; exact h),
    List.reverse_reverse]

theorem getLast?_dropTrailing_not (p : Char → Bool) (l : Str) :
    ∀ x ∈ (dropTrailing p l).getLast?, p x = false := by
  unfold dropTrailing
  rw [List.getLast?_reverse]
  exact head?_dropWhile_not p l.reverse

theorem dropTrailing_prefixOf (p : Char → Bool) (l : Str) :
    dropTrailing p l <+: l := by
  unfold dropTrailing
  conv_rhs => rw [← List.reverse_reverse l]
  exact List.reverse_prefix.mpr (List.dropWhile_suffix p)

theorem prefix_head? {l₁ l₂ : Str} (h : l₁ <+: l₂) (hne : l₁ ≠ []) :
    l₁.head? = l₂.head? := by
  obtain ⟨r, rfl⟩ := h
  cases l₁ with
  | nil => exact absurd rfl hne
  | cons c t => rfl

theorem head?_trimStr_not (l : Str) :
    ∀ x ∈ (trimStr l).head?, isWsChar x = false := by
  intro x hx
  unfold trimStr at hx
  by_cases hne : dropTrailing isWsChar (l.dropWhile isWsChar) = []
  · rw [hne] at hx
    cases hx
  · rw [prefix_head? (dropTrailing_prefixOf _ _) hne] at hx
    exact head?_dropWhile_not isWsChar l x hx

theorem getLast?_trimStr_not (l : Str) :
    ∀ x ∈ (trimStr l).getLast?, isWsChar x = false :=
  getLast?_dropTrailing_not isWsChar _

theorem trimStr_eq_self {l : Str}
    (h1 : ∀ x ∈ l.head?, isWsChar x = false)
    (h2 : ∀ x ∈ l.getLast?, isWsChar x = false) : trimStr l = l := by
  unfold trimStr
  rw [dropWhile_eq_self_of_head h1, dropTrailing_eq_self_of_getLast h2]

theorem trimStr_idem (l : Str) : trimStr (trimStr l) = trimStr l :=
  trimStr_eq_self (head?_trimStr_not l) (getLast?_trimStr_not l)

theorem stripEdgeQuotes_eq_self {l : Str}
    (h1 : ∀ x ∈ l.head?, isQuoteChar x = false)
    (h2 : ∀ x ∈ l.getLast?, isQuoteChar x = false) :
    stripEdgeQuotes l = l := by
  unfold stripEdgeQuotes
  rw [dropWhile_eq_self_of_head h1, dropTrailing_eq_self_of_getLast h2]

theorem noEdgeQuote_head {l : Str} (h : noEdgeQuote l = true) :
    ∀ x ∈ l.head?, isQuoteChar x = false := by
  intro x hx
  unfold noEdgeQuote at h
  rw [Bool.and_eq_true] at h
  have h1 := h.1
  rw [hx] at h1
  simpa using h1

theorem noEdgeQuote_getLast {l : Str} (h : noEdgeQuote l = true) :
    ∀ x ∈ l.getLast?, isQuoteChar x = false := by
  intro x hx
  unfold noEdgeQuote at h
  rw [Bool.and_eq_true] at h
  have h2 := h.2
  rw [hx] at h2
  simpa using h2

/-! Invariants of the Field Normalizer output, leading to the amended
idempotence claim. -/

theorem normalizeCardText_eq (s : Str) (hne : s ≠ []) :
    normalizeCardText s =
      trimStr (collapseWs (List.filter isAllowedChar
        (stripEdgeQuotes (removeParens
          (List.filter (fun c => !isZeroWidth c)
            (List.filter (fun c => !isCtrlChar c) (lowerStr s))))))) := by
  unfold normalizeCardText
  rw [if_neg hne]

theorem mem_normalize_cases {s : Str} {c : Char}
    (hc : c ∈ normalizeCardText s) :
    c = ' ' ∨ c ∈ List.filter isAllowedChar
      (stripEdgeQuotes (removeParens
        (List.filter (fun c => !isZeroWidth c)
          (List.filter (fun c => !isCtrlChar c) (lowerStr s))))) := by
  by_cases h0 : s = []
  · subst h0
    simp [normalizeCardText] at hc
  · rw [normalizeCardText_eq s h0] at hc
    have hc1 := (trimStr_sublist _).subset hc
    exact collapseWsGo_forall
      (fun x => x = ' ' ∨ x ∈ List.filter isAllowedChar
        (stripEdgeQuotes (removeParens
          (List.filter (fun c => !isZeroWidth c)
            (List.filter (fun c => !isCtrlChar c) (lowerStr s))))))
      (Or.inl rfl) _ (fun d hd _ => Or.inr hd) false c hc1

theorem normalize_not_ctrl (s : Str) :
    ∀ c ∈ normalizeCardText s, isCtrlChar c = false := by
  intro c hc
  rcases mem_normalize_cases hc with rfl | hc6
  · decide
  · have hc5 := (List.filter_sublist _).subset hc6
    have hc4 := (stripEdgeQuotes_sublist _).subset hc5
    have hc3 := (removeParens_sublist _).subset hc4
    have hc2 := (List.filter_sublist _).subset hc3
    have := (List.mem_filter.mp hc2).2
    simpa using this

theorem normalize_not_zw (s : Str) :
    ∀ c ∈ normalizeCardText s, isZeroWidth c = false := by
  intro c hc
  rcases mem_normalize_cases hc with rfl | hc6
  · decide
  · have hc5 := (List.filter_sublist _).subset hc6
    have hc4 := (stripEdgeQuotes_sublist _).subset hc5
    have hc3 := (removeParens_sublist _).subset hc4
    have := (List.mem_filter.mp hc3).2
    simpa using this

theorem normalize_allowed (s : Str) :
    ∀ c ∈ normalizeCardText s, isAllowedChar c = true := by
  intro c hc
  rcases mem_normalize_cases hc with rfl | hc6
  · decide
  · exact (List.mem_filter.mp hc6).2

theorem normalize_parenFree (s : Str) :
    parenFreeB (normalizeCardText s) = true := by
  by_cases h0 : s = []
  · subst h0
    rfl
  · rw [normalizeCardText_eq s h0]
    refine parenFreeB_sublist (trimStr_sublist _) ?_
    refine collapseWsGo_parenFree ?_ false
    refine parenFreeB_sublist (List.filter_sublist _) ?_
    refine parenFreeB_sublist (stripEdgeQuotes_sublist _) ?_
    exact removeParens_parenFree _

theorem normalize_space (s : Str) :
    ∀ c ∈ normalizeCardText s, isWsChar c = true → c = ' ' := by
  by_cases h0 : s = []
  · subst h0
    intro c hc
    simp [normalizeCardText] at hc
  · rw [normalizeCardText_eq s h0]
    intro c hc
    exact collapseWsGo_space _ false c ((trimStr_sublist _).subset hc)

theorem normalize_chain (s : Str) :
    List.Chain' noTwoWs (normalizeCardText s) := by
  by_cases h0 : s = []
  · subst h0
    exact List.chain'_nil
  · rw [normalizeCardText_eq s h0]
    have hch := collapseWsGo_chain (List.filter isAllowedChar
      (stripEdgeQuotes (removeParens
        (List.filter (fun c => !isZeroWidth c)
          (List.filter (fun c => !isCtrlChar c) (lowerStr s)))))) false
    unfold trimStr
    exact List.Chain'.prefix
      ( List.Chain'.suffix hch (List.dropWhile_suffix _))
      (dropTrailing_prefixOf _ _)

theorem normalize_trim_fixed (s : Str) :
    trimStr (normalizeCardText s) = normalizeCardText s := by
  by_cases h0 : s = []
  · subst h0
    rfl
  · rw [normalizeCardText_eq s h0]
    exact trimStr_idem _

/-- Claim C3, counterexample.  Normalizing a string whose character
filter exposes new edge quotes is not idempotent: the second application
strips the quotes. -/
theorem claim3_counterexample :
    normalizeCardText (normalizeCardText "~\"a\"~".toList) ≠
      normalizeCardText "~\"a\"~".toList := by
  decide

/-- Claim C3 as amended: the Field Normalizer is idempotent on every
string whose normalized form neither starts nor ends with a quote
character; in general a second application can differ only by stripping
edge quotes exposed by the character filter. -/
theorem claim3_amended (x : Str)
    (h : noEdgeQuote (normalizeCardText x) = true) :
    normalizeCardText (normalizeCardText x) = normalizeCardText x := by
  by_cases hy : normalizeCardText x = []
  · rw [hy]
    rfl
  · have hlf : lowerStr (normalizeCardText x) = normalizeCardText x :=
      lowerStr_eq_self (normalize_chars_lower_fixed x)
    have hct : List.filter (fun c => !isCtrlChar c) (normalizeCardText x) =
        normalizeCardText x :=
      List.filter_eq_self.mpr fun a ha => by
        rw [normalize_not_ctrl x a ha]
        rfl
    have hzw : List.filter (fun c => !isZeroWidth c) (normalizeCardText x) =
        normalizeCardText x :=
      List.filter_eq_self.mpr fun a ha => by
        rw [normalize_not_zw x a ha]
        rfl
    have hrp : removeParens (normalizeCardText x) = normalizeCardText x :=
      removeParens_eq_self (normalize_parenFree x)
    have hsq : stripEdgeQuotes (normalizeCardText x) = normalizeCardText x :=
      stripEdgeQuotes_eq_self (noEdgeQuote_head h) (noEdgeQuote_getLast h)
    have hal : List.filter isAllowedChar (normalizeCardText x) =
        normalizeCardText x :=
      List.filter_eq_self.mpr (normalize_allowed x)
    have hcw : collapseWs (normalizeCardText x) = normalizeCardText x :=
      collapseWsGo_eq_self (normalize_space x) (normalize_chain x)
    rw [normalizeCardText_eq _ hy, hlf, hct, hzw, hrp, hsq, hal, hcw,
      normalize_trim_fixed x]

/-- Witness for the amended claim C3 at a concrete string containing a
parenthetical aside and uppercase letters. -/
theorem claim3_witness :
    normalizeCardText (normalizeCardText "Apple (fruit)".toList) =
      normalizeCardText "Apple (fruit)".toList :=
  claim3_amended _ (by decide)

/-! Lemmas for the round-trip claim: splitting the joined serialization
recovers the lines, and one stable line is parsed back to its card. -/

theorem splitLines_cons (c : Char) (rest : Str) :
    splitLines (c :: rest) =
      if c = '\n' then [] :: splitLines rest
      else
        match splitLines rest with
        | l :: ls => (c :: l) :: ls
        | [] => [[c]] := rfl

theorem splitLines_no_nl {l : Str} (h : '\n' ∉ l) : splitLines l = [l] := by
  induction l with
  | nil => rfl
  | cons c t ih =>
    have hc : c ≠ '\n' := fun hc => h (hc ▸ List.mem_cons_self c t)
    have ht : '\n' ∉ t := fun hm => h (List.mem_cons_of_mem c hm)
    rw [splitLines_cons, if_neg hc, ih ht]

theorem splitLines_append_nl {l r : Str} (h : '\n' ∉ l) :
    splitLines (l ++ '\n' :: r) = l :: splitLines r := by
  induction l with
  | nil =>
    show splitLines ('\n' :: r) = [] :: splitLines r
    rw [splitLines_cons, if_pos rfl]
  | cons c t ih =>
    have hc : c ≠ '\n' := fun hc => h (hc ▸ List.mem_cons_self c t)
    have ht : '\n' ∉ t := fun hm => h (List.mem_cons_of_mem c hm)
    show splitLines (c :: (t ++ '\n' :: r)) = (c :: t) :: splitLines r
    rw [splitLines_cons, if_neg hc, ih ht]

theorem splitLines_joinLines {ls : List Str}
    (h : ∀ l ∈ ls, '\n' ∉ l) (hne : ls ≠ []) :
    splitLines (joinLines ls) = ls := by
  induction ls with
  | nil => exact absurd rfl hne
  | cons l ls ih =>
    cases ls with
    | nil => exact splitLines_no_nl (h l (List.mem_cons_self _ _))
    | cons l2 ls2 =>
      show splitLines (l ++ '\n' :: joinLines (l2 :: ls2)) = l :: l2 :: ls2
      rw [splitLines_append_nl (h l (List.mem_cons_self _ _)),
        ih (fun x hx => h x (List.mem_cons_of_mem l hx)) (by simp)]

theorem subIdx_pipe {f : Str} (hf : '|' ∉ f) (r : Str) :
    subIdx ['|'] (f ++ '|' :: r) = some f.length := by
  induction f with
  | nil =>
    show subIdx ['|'] ('|' :: r) = some 0
    unfold subIdx
    rw [if_pos (by simp [List.isPrefixOf])]
  | cons c t ih =>
    have hc : c ≠ '|' := fun hc => hf (hc ▸ List.mem_cons_self c t)
    have ht : '|' ∉ t := fun hm => hf (List.mem_cons_of_mem c hm)
    show subIdx ['|'] (c :: (t ++ '|' :: r)) = some (t.length + 1)
    unfold subIdx
    rw [if_neg (by simp [List.isPrefixOf]; exact fun hcon => hc hcon.symm),
      ih ht]
    rfl

theorem trimStr_head_not {f : Str} (hf : trimStr f = f) :
    ∀ x ∈ f.head?, isWsChar x = false := by
  intro x hx
  rw [← hf] at hx
  exact head?_trimStr_not f x hx

theorem trimStr_getLast_not {f : Str} (hf : trimStr f = f) :
    ∀ x ∈ f.getLast?, isWsChar x = false := by
  intro x hx
  rw [← hf] at hx
  exact getLast?_trimStr_not f x hx

theorem trimStr_append_space {f : Str} (hf : trimStr f = f) (hne : f ≠ []) :
    trimStr (f ++ [' ']) = f := by
  unfold trimStr
  have hdw : (f ++ [' ']).dropWhile isWsChar = f ++ [' '] := by
    cases f with
    | nil => exact absurd rfl hne
    | cons c t =>
      rw [List.cons_append, List.dropWhile_cons,
        if_neg (by simp [trimStr_head_not hf c rfl])]
  rw [hdw]
  unfold dropTrailing
  rw [List.reverse_append, List.reverse_singleton, List.singleton_append,
    List.dropWhile_cons, if_pos (by decide),
    dropWhile_eq_self_of_head (by rw [List.head?_reverse]
                                  exact trimStr_getLast_not hf),
    List.reverse_reverse]

theorem trimStr_cons_space {b : Str} (hb : trimStr b = b) :
    trimStr (' ' :: b) = b := by
  unfold trimStr
  rw [List.dropWhile_cons, if_pos (by decide),
    dropWhile_eq_self_of_head (trimStr_head_not hb)]
  exact dropTrailing_eq_self_of_getLast (trimStr_getLast_not hb)

theorem trySeparators_lineOf {f b : Str} (hf : trimStr f = f)
    (hb : trimStr b = b) (hfne : f ≠ []) (hbne : b ≠ []) (hneq : f ≠ b)
    (hpipe : '|' ∉ f) :
    trySeparators (f ++ ' ' :: '|' :: ' ' :: b) = some (f, b) := by
  have hidx : subIdx ['|'] (f ++ ' ' :: '|' :: ' ' :: b) =
      some (f.length + 1) := by
    have h1 : '|' ∉ f ++ [' '] := by
      intro hm
      rcases List.mem_append.mp hm with hm | hm
      · exact hpipe hm
      · simp at hm
    have := subIdx_pipe h1 (' ' :: b)
    rw [List.append_assoc] at this
    simpa using this
  have hsplit1 : f ++ ' ' :: '|' :: ' ' :: b =
      (f ++ [' ']) ++ '|' :: ' ' :: b := by
    rw [List.append_assoc]
    rfl
  have htake : (f ++ ' ' :: '|' :: ' ' :: b).take (f.length + 1) =
      f ++ [' '] := by
    have hlen : f.length + 1 = (f ++ [' ']).length := by simp
    rw [hsplit1, hlen, List.take_left]
  have hsplit2 : f ++ ' ' :: '|' :: ' ' :: b =
      (f ++ [' ', '|']) ++ ' ' :: b := by
    rw [List.append_assoc]
    rfl
  have hdrop : (f ++ ' ' :: '|' :: ' ' :: b).drop (f.length + 1 + 1) =
      ' ' :: b := by
    have hlen : f.length + 1 + 1 = (f ++ [' ', '|']).length := by simp
    rw [hsplit2, hlen, List.drop_left]
  unfold trySeparators separators
  unfold trySepList
  rw [hidx]
  simp only [List.length_singleton]
  rw [htake, hdrop, trimStr_append_space hf hfne, trimStr_cons_space hb]
  rw [if_pos ⟨hfne, hbne, hneq⟩]

theorem stableCard_spec {c : Card} (h : stableCard c = true) :
    c.front ≠ [] ∧ c.back ≠ [] ∧ c.front ≠ c.back ∧
    '\n' ∉ c.front ∧ '\n' ∉ c.back ∧ '|' ∉ c.front ∧
    trimStr c.front = c.front ∧ trimStr c.back = c.back ∧
    normalizeCardText c.front = c.front ∧
    normalizeCardText c.back = c.back ∧
    cleanAIGeneratedText (lineOf c) = lineOf c ∧
    skipLine (lineOf c) = false ∧
    isMetaPair c.front c.back = false := by
  unfold stableCard at h
  simp only [Bool.and_eq_true, decide_eq_true_eq, Bool.not_eq_true',
    and_assoc] at h
  exact h

theorem processLine_lineOf {c : Card} (hst : stableCard c = true) :
    processLine (lineOf c) = [c] := by
  obtain ⟨hfne, hbne, hneq, hnlf, hnlb, hpipe, htf, htb, hnf, hnb,
    hclean, hskip, hmeta⟩ := stableCard_spec hst
  have htry : trySeparators (lineOf c) = some (c.front, c.back) :=
    trySeparators_lineOf htf htb hfne hbne hneq hpipe
  have hlne : lineOf c ≠ [] :=
    List.append_ne_nil_of_right_ne_nil _ (by simp)
  have hlen : ¬(lineOf c).length < 3 := by
    unfold lineOf
    rw [List.length_append]
    simp only [List.length_cons]
    omega
  unfold processLine
  rw [hclean, if_neg hlne, if_neg hlen, if_neg (by rw [hskip]; simp), htry]
  dsimp only
  rw [hnf, hnb]
  unfold emitStep
  rw [if_pos ⟨hfne, hbne, hneq, by rw [hmeta]; simp⟩]

theorem lineOf_no_nl {c : Card} (hf : '\n' ∉ c.front)
    (hb : '\n' ∉ c.back) : '\n' ∉ lineOf c := by
  unfold lineOf
  intro hm
  rcases List.mem_append.mp hm with hm | hm
  · exact hf hm
  · simp only [List.mem_cons] at hm
    rcases hm with h | h | h | h
    · exact absurd h (by decide)
    · exact absurd h (by decide)
    · exact absurd h (by decide)
    · exact hb h

theorem flatMap_processLine_lineOf {cards : List Card}
    (h : ∀ c ∈ cards, stableCard c = true) :
    (cards.map lineOf).flatMap processLine = cards := by
  induction cards with
  | nil => rfl
  | cons c cs ih =>
    rw [List.map_cons, List.flatMap_cons,
      processLine_lineOf (h c (List.mem_cons_self _ _)),
      ih (fun x hx => h x (List.mem_cons_of_mem c hx))]
    rfl

theorem parse_joinCards {cards : List Card}
    (h : ∀ c ∈ cards, stableCard c = true) :
    parseAndNormalizeFlashcards (joinCards cards) = cards := by
  cases cards with
  | nil => rfl
  | cons c0 cs =>
    have hjne : joinCards (c0 :: cs) ≠ [] := by
      unfold joinCards
      rw [List.map_cons]
      cases cs with
      | nil =>
        show lineOf c0 ≠ []
        exact List.append_ne_nil_of_right_ne_nil _ (by simp)
      | cons c1 cs1 =>
        show lineOf c0 ++ '\n' :: joinLines (lineOf c1 :: cs1.map lineOf) ≠ []
        exact List.append_ne_nil_of_right_ne_nil _ (by simp)
    have hnl : ∀ l ∈ (c0 :: cs).map lineOf, '\n' ∉ l := by
      intro l hl
      rcases List.mem_map.mp hl with ⟨d, hd, rfl⟩
      obtain ⟨_, _, _, hnlf, hnlb, _⟩ := stableCard_spec (h d hd)
      exact lineOf_no_nl hnlf hnlb
    unfold parseAndNormalizeFlashcards
    rw [if_neg hjne]
    rw [show joinCards (c0 :: cs) = joinLines ((c0 :: cs).map lineOf)
      from rfl]
    rw [splitLines_joinLines hnl (by simp)]
    exact flatMap_processLine_lineOf h

/-! The Deduplicator is a fixed point on its own output. -/

theorem dedupGo_key_notin (counts : Str → Nat) (seen : List Str)
    (l : List Card) (c : Card) (hc : c ∈ dedupGo counts seen l) :
    cardKey c ∉ seen := by
  induction l generalizing seen with
  | nil => simp [dedupGo] at hc
  | cons d rest ih =>
    unfold dedupGo at hc
    by_cases h1 : cardKey d ∈ seen
    · rw [if_pos h1] at hc
      exact ih seen hc
    · rw [if_neg h1] at hc
      by_cases h2 : 2 < counts (lowerStr d.back)
      · rw [if_pos h2] at hc
        exact ih seen hc
      · rw [if_neg h2] at hc
        rcases List.mem_cons.mp hc with rfl | hc
        · exact h1
        · intro hmem
          exact ih (cardKey d :: seen) hc (List.mem_cons_of_mem _ hmem)

theorem dedupGo_pairwise (counts : Str → Nat) (seen : List Str)
    (l : List Card) :
    (dedupGo counts seen l).Pairwise (fun a b => cardKey a ≠ cardKey b) := by
  induction l generalizing seen with
  | nil => simp [dedupGo]
  | cons d rest ih =>
    unfold dedupGo
    by_cases h1 : cardKey d ∈ seen
    · rw [if_pos h1]
      exact ih seen
    · rw [if_neg h1]
      by_cases h2 : 2 < counts (lowerStr d.back)
      · rw [if_pos h2]
        exact ih seen
      · rw [if_neg h2]
        refine List.Pairwise.cons ?_ (ih (cardKey d :: seen))
        intro b hb heq
        exact dedupGo_key_notin counts _ rest b hb
          (heq ▸ List.mem_cons_self _ _)

theorem dedupGo_eq_self (counts : Str → Nat) (seen : List Str)
    (l : List Card)
    (h2 : ∀ c ∈ l, counts (lowerStr c.back) ≤ 2)
    (h1 : ∀ c ∈ l, cardKey c ∉ seen)
    (hp : l.Pairwise (fun a b => cardKey a ≠ cardKey b)) :
    dedupGo counts seen l = l := by
  induction l generalizing seen with
  | nil => rfl
  | cons d rest ih =>
    unfold dedupGo
    rw [if_neg (h1 d (List.mem_cons_self _ _)),
      if_neg (by have := h2 d (List.mem_cons_self _ _); omega)]
    congr 1
    refine ih (cardKey d :: seen)
      (fun c hc => h2 c (List.mem_cons_of_mem d hc)) ?_
      (List.Pairwise.of_cons hp)
    intro c hc hmem
    rcases List.mem_cons.mp hmem with heq | hmem2
    · exact (List.pairwise_cons.mp hp).1 c hc heq.symm
    · exact h1 c (List.mem_cons_of_mem d hc) hmem2

theorem removeDuplicateCards_of_dedup (cards : List Card) :
    removeDuplicateCards (removeDuplicateCards cards) =
      removeDuplicateCards cards := by
  refine dedupGo_eq_self _ _ _ ?_ (by simp) (dedupGo_pairwise _ _ _)
  intro c hc
  calc backCount (removeDuplicateCards cards) (lowerStr c.back)
      ≤ backCount cards (lowerStr c.back) :=
        List.Sublist.countP_le _ (dedupGo_sublist _ _ _)
    _ ≤ 2 := removeDuplicateCards_back_le cards c hc

/-- Claim C4, counterexample.  The pipeline can emit a card whose front
starts with a dash; on re-parse the Noise Cleaner strips the dash as a
bullet, so the joined output does not reproduce the same cards. -/
theorem claim4_counterexample :
    fullPipeline (joinCards (fullPipeline "\"-x|b".toList)) ≠
      fullPipeline "\"-x|b".toList := by
  decide

/-- Claim C4 as amended: re-running the full pipeline on its own output,
pipe-joined one card per line, reproduces exactly the same cards,
provided every emitted card is stable: its sides are fixed points of
the Field Normalizer and trimming, newline- and (for the front)
pipe-free, non-meta, and its joined line is a fixed point of the Noise
Cleaner accepted by the Line Classifier.  Without these provisos a
re-parsed line can be altered or dropped, as the dash counterexample
shows. -/
theorem claim4_amended (input : Str)
    (h : ∀ c ∈ fullPipeline input, stableCard c = true) :
    fullPipeline (joinCards (fullPipeline input)) = fullPipeline input := by
  unfold fullPipeline at h ⊢
  rw [parse_joinCards h]
  exact removeDuplicateCards_of_dedup _

/-- Witness for the amended claim C4 at the three-line sample input. -/
theorem claim4_witness :
    fullPipeline (joinCards
      (fullPipeline "apple | appel\nbread | brood\ncheese | kaas".toList)) =
      fullPipeline "apple | appel\nbread | brood\ncheese | kaas".toList :=
  claim4_amended _ (by decide)

end FlashyCard
